import Mathlib

/-!
Verification development for the WBWT ("word-based Burrows-Wheeler transform")
compression codec of the quick-note repository.

The codec source is TypeScript operating on JS strings and numeric arrays; the
shallow embedding below models

* a JS string as the list of its Unicode scalar values (`Str := List Char`);
  the places where JS semantics is sensitive to the UTF-16 representation
  (the default `Array.prototype.sort` comparator) expand characters to their
  UTF-16 code units first (`strUnits`);
* `Uint32Array` / number arrays as `List ℕ` — typed-array writes out of range
  are discarded, which matches `List.set`, and out-of-range reads used by the
  code are modelled by `List.getD _ 0`;
* JS numbers as `ℕ`; the codec's arithmetic stays below `2 ^ 53` (where
  doubles are exact) on all inputs considered here, and every explicit 32-bit
  truncation of the source (`>>> 0`, `& 0xff`, 32-bit `<<` / `|`) is modelled
  by an explicit `% 2 ^ 32` or `&&&` at the same place;
* `String.prototype.toLowerCase/toUpperCase` by their ASCII restrictions: the
  codec only calls them on tokens matched by `WORD_PATTERN` / payloads of case
  markers, which consist of ASCII letters, apostrophes and hyphens.

`JSON`-level behaviours such as exceptions are modelled with `Except`, and the
one genuinely non-terminating loop of the source (`decodeMtfRle` on a
truncated stream) with an explicit fuel parameter that yields `none` when
exhausted.
-/

/-- Unicode scalar values of a JS string. -/
abbrev Str := List Char

/-- Control prefix byte 0x1F (`CONTROL_PREFIX`). -/
def controlChar : Char := Char.ofNat 31

/-- Apostrophe character, one of the two in-word separators of `TOKEN_PATTERN`. -/
def aposChar : Char := Char.ofNat 39

/-- Marker `"\x1Fs"` (`TOKEN_WS_SPACE`). -/
def TOKEN_WS_SPACE : Str := [controlChar, 's']

/-- Marker `"\x1Fn"` (`TOKEN_WS_NEWLINE`). -/
def TOKEN_WS_NEWLINE : Str := [controlChar, 'n']

/-- Marker `"\x1Ft"` (`TOKEN_WS_TAB`). -/
def TOKEN_WS_TAB : Str := [controlChar, 't']

/-- Marker `"\x1Fd"` (`TOKEN_NUM`). -/
def TOKEN_NUM : Str := [controlChar, 'd']

/-- Marker `"\x1Fu"` (`TOKEN_CASE_UPPER`). -/
def TOKEN_CASE_UPPER : Str := [controlChar, 'u']

/-- Marker `"\x1Fc"` (`TOKEN_CASE_TITLE`). -/
def TOKEN_CASE_TITLE : Str := [controlChar, 'c']

/-- Marker `"\x1Fe"` (`TOKEN_ESCAPE`). -/
def TOKEN_ESCAPE : Str := [controlChar, 'e']

/-- Character class `[A-Za-z]` of `WORD_PATTERN`. -/
def isAsciiLetter (c : Char) : Bool :=
  (65 ≤ c.toNat && c.toNat ≤ 90) || (97 ≤ c.toNat && c.toNat ≤ 122)

/-- Character class `[0-9]` of `NUMBER_PATTERN`. -/
def isAsciiDigit (c : Char) : Bool :=
  48 ≤ c.toNat && c.toNat ≤ 57

/-- Character class `[A-Za-z0-9]` of `TOKEN_PATTERN`. -/
def isAsciiAlnum (c : Char) : Bool :=
  isAsciiLetter c || isAsciiDigit c

/-- Code points matched by the JS regex class `\s` (WhiteSpace and
LineTerminator code points of ECMA-262). -/
def jsWhitespaceCodes : List ℕ :=
  [9, 10, 11, 12, 13, 32, 160, 5760, 8192, 8193, 8194, 8195, 8196, 8197,
   8198, 8199, 8200, 8201, 8202, 8232, 8233, 8239, 8287, 12288, 65279]

/-- Membership in the JS regex class `\s`. -/
def isJsWhitespace (c : Char) : Bool :=
  jsWhitespaceCodes.contains c.toNat

/-- Word separator class `['-]` of `TOKEN_PATTERN` and `WORD_PATTERN`. -/
def isWordSep (c : Char) : Bool :=
  c = aposChar || c = '-'

/-- JS `toLowerCase`, restricted to its ASCII action; the codec only applies
it to `WORD_PATTERN` tokens, which are ASCII. -/
def asciiLower (c : Char) : Char :=
  if 65 ≤ c.toNat ∧ c.toNat ≤ 90 then Char.ofNat (c.toNat + 32) else c

/-- JS `toUpperCase`, restricted to its ASCII action; see `asciiLower`. -/
def asciiUpper (c : Char) : Char :=
  if 97 ≤ c.toNat ∧ c.toNat ≤ 122 then Char.ofNat (c.toNat - 32) else c

/-- JS `s.toLowerCase()` on an ASCII word token. -/
def toLowerCase (s : Str) : Str := s.map asciiLower

/-- JS `s.toUpperCase()` on an ASCII word token. -/
def toUpperCase (s : Str) : Str := s.map asciiUpper

/-- Base-36 digit character used by JS `Number.prototype.toString(36)`
(lower-case letters). -/
def base36Digit (n : ℕ) : Char :=
  if n < 10 then Char.ofNat (48 + n) else Char.ofNat (87 + n)

/-- Digit loop of `toString(36)`; the fuel `n + 1` dominates the number of
divisions by 36, so `toBase36` below computes the full digit string. -/
def toBase36Aux : ℕ → ℕ → Str
  | 0, _ => []
  | fuel + 1, n =>
    if n < 36 then [base36Digit n]
    else toBase36Aux fuel (n / 36) ++ [base36Digit (n % 36)]

/-- JS `n.toString(36)` for a natural number. -/
def toBase36 (n : ℕ) : Str :=
  toBase36Aux (n + 1) n

/-- Value of a base-36 digit accepted by JS `parseInt(_, 36)`
(case-insensitive). -/
def digitValue36 (c : Char) : Option ℕ :=
  if 48 ≤ c.toNat ∧ c.toNat ≤ 57 then some (c.toNat - 48)
  else if 97 ≤ c.toNat ∧ c.toNat ≤ 122 then some (c.toNat - 87)
  else if 65 ≤ c.toNat ∧ c.toNat ≤ 90 then some (c.toNat - 55)
  else none

/-- Accumulating loop of `parseInt(_, 36)` over the maximal digit prefix. -/
def parseInt36Aux : Str → ℕ → ℕ
  | [], acc => acc
  | c :: rest, acc =>
    match digitValue36 c with
    | some v => parseInt36Aux rest (acc * 36 + v)
    | none => acc

/-- JS `parseInt(s, 36)`: `none` models `NaN` (no leading digit).  Sign and
whitespace prefixes never occur in the token payloads the codec parses. -/
def parseInt36 (s : Str) : Option ℕ :=
  match s with
  | [] => none
  | c :: rest =>
    match digitValue36 c with
    | some v => some (parseInt36Aux rest v)
    | none => none

/-- Character class `[^\sA-Za-z0-9]` (second `TOKEN_PATTERN` alternative). -/
def isOtherClass (c : Char) : Bool :=
  !isAsciiAlnum c && !isJsWhitespace c

/-- Group suffix `(?:['-][A-Za-z0-9]+)*` of the first `TOKEN_PATTERN`
alternative, by greedy matching: returns the matched continuation and the
rest of the input.  Each round consumes at least two characters, so fuel
`l.length` (supplied by `wordGroups`) never runs out. -/
def wordGroupsF : ℕ → Str → Str × Str
  | 0, l => ([], l)
  | fuel + 1, l =>
    match l with
    | c :: c2 :: rest =>
      if isWordSep c && isAsciiAlnum c2 then
        let p := wordGroupsF fuel ((c2 :: rest).dropWhile isAsciiAlnum)
        (c :: ((c2 :: rest).takeWhile isAsciiAlnum ++ p.1), p.2)
      else ([], l)
    | _ => ([], l)

/-- Greedy match of the `TOKEN_PATTERN` word-group suffix. -/
def wordGroups (l : Str) : Str × Str :=
  wordGroupsF l.length l

/-- Greedy global matching of `TOKEN_PATTERN`: at each position the first
alternative that matches is taken — a word run `[A-Za-z0-9]+(?:['-][A-Za-z0-9]+)*`,
a run `[^\sA-Za-z0-9]+`, or a whitespace run `\s+`.  Every character belongs
to exactly one class, so the matches tile the input; every match is nonempty,
so fuel `text.length` (supplied by `tokenize`) never runs out. -/
def tokenizeF : ℕ → Str → List Str
  | 0, _ => []
  | fuel + 1, text =>
    match text with
    | [] => []
    | c :: rest =>
      if isAsciiAlnum c then
        ((c :: rest).takeWhile isAsciiAlnum ++
            (wordGroups ((c :: rest).dropWhile isAsciiAlnum)).1) ::
          tokenizeF fuel (wordGroups ((c :: rest).dropWhile isAsciiAlnum)).2
      else if isJsWhitespace c then
        (c :: rest).takeWhile isJsWhitespace :: tokenizeF fuel ((c :: rest).dropWhile isJsWhitespace)
      else
        (c :: rest).takeWhile isOtherClass :: tokenizeF fuel ((c :: rest).dropWhile isOtherClass)

/-- Source `tokenize`. -/
def tokenize (text : Str) : List Str :=
  tokenizeF text.length text

/-- JS `token.startsWith(CONTROL_PREFIX)`. -/
def startsWithControl (t : Str) : Bool :=
  match t with
  | c :: _ => c = controlChar
  | [] => false

/-- Test of `SPACE_PATTERN` (`^ +$`). -/
def isSpaceRun (t : Str) : Bool :=
  !t.isEmpty && t.all (fun c => c = ' ')

/-- Test of `NEWLINE_PATTERN` (`^\n+$`). -/
def isNewlineRun (t : Str) : Bool :=
  !t.isEmpty && t.all (fun c => c = '\n')

/-- Test of `TAB_PATTERN` (`^\t+$`). -/
def isTabRun (t : Str) : Bool :=
  !t.isEmpty && t.all (fun c => c = '\t')

/-- Test of `NUMBER_PATTERN` (`^\d+$`). -/
def isNumberRun (t : Str) : Bool :=
  !t.isEmpty && t.all isAsciiDigit

/-- Continuation of `WORD_PATTERN` after a letter run: a (greedy) sequence of
`['-][A-Za-z]+` groups consuming the whole rest. -/
def wordShapeRestF : ℕ → Str → Bool
  | 0, l => l.isEmpty
  | fuel + 1, l =>
    match l with
    | [] => true
    | c :: rest =>
      isWordSep c && !(rest.takeWhile isAsciiLetter).isEmpty &&
        wordShapeRestF fuel (rest.dropWhile isAsciiLetter)

/-- Continuation test after a letter run, with enough fuel for `l`. -/
def wordShapeRest (l : Str) : Bool :=
  wordShapeRestF l.length l

/-- Test of `WORD_PATTERN` (`^[A-Za-z]+(?:['-][A-Za-z]+)*$`). -/
def isWordShape (t : Str) : Bool :=
  !(t.takeWhile isAsciiLetter).isEmpty && wordShapeRest (t.dropWhile isAsciiLetter)

/-- JS `token[0].toUpperCase() + token.slice(1).toLowerCase()`. -/
def titleCase (t : Str) : Str :=
  match t with
  | [] => []
  | c :: cs => asciiUpper c :: toLowerCase cs

/-- Normalized form of one raw token — the body of the `normalizeTokens` loop. -/
def normalizeToken (token : Str) : List Str :=
  if startsWithControl token then [TOKEN_ESCAPE, token]
  else if isSpaceRun token then [TOKEN_WS_SPACE, toBase36 token.length]
  else if isNewlineRun token then [TOKEN_WS_NEWLINE, toBase36 token.length]
  else if isTabRun token then [TOKEN_WS_TAB, toBase36 token.length]
  else if isNumberRun token then [TOKEN_NUM, token]
  else if isWordShape token then
    let lower := toLowerCase token
    if token = lower then [lower]
    else if token = toUpperCase token then [TOKEN_CASE_UPPER, lower]
    else if token = titleCase token then [TOKEN_CASE_TITLE, lower]
    else [token]
  else [token]

/-- Source `normalizeTokens`. -/
def normalizeTokens (tokens : List Str) : List Str :=
  tokens.flatMap normalizeToken

/-- Pending whitespace / payload mode of the `renderTokens` state machine. -/
inductive PendingMode
  | space
  | newline
  | tab
  | number
  | escape
deriving DecidableEq

/-- Pending case mode of the `renderTokens` state machine. -/
inductive PendingCase
  | upper
  | title
deriving DecidableEq

/-- Loop of `renderTokens` with its two mutable state variables explicit. -/
def renderAux : List Str → Option PendingCase → Option PendingMode → Str
  | [], _, _ => []
  | token :: rest, pendingCase, pendingMode =>
    if token = TOKEN_CASE_UPPER then renderAux rest (some .upper) pendingMode
    else if token = TOKEN_CASE_TITLE then renderAux rest (some .title) pendingMode
    else if token = TOKEN_WS_SPACE then renderAux rest pendingCase (some .space)
    else if token = TOKEN_WS_NEWLINE then renderAux rest pendingCase (some .newline)
    else if token = TOKEN_WS_TAB then renderAux rest pendingCase (some .tab)
    else if token = TOKEN_NUM then renderAux rest pendingCase (some .number)
    else if token = TOKEN_ESCAPE then renderAux rest pendingCase (some .escape)
    else
      match pendingMode with
      | some mode =>
        let count := (parseInt36 token).getD 0
        (match mode with
          | .space => List.replicate count ' '
          | .newline => List.replicate count '\n'
          | .tab => List.replicate count '\t'
          | .number => token
          | .escape => token) ++ renderAux rest pendingCase none
      | none =>
        (match pendingCase with
          | some .upper => toUpperCase token
          | some .title => titleCase token
          | none => token) ++ renderAux rest none none

/-- Source `renderTokens`. -/
def renderTokens (tokens : List Str) : Str :=
  renderAux tokens none none

/-- First-seen dictionary of `tokensToIds` (insertion order of the JS `Map`). -/
def firstSeenDict (tokens : List Str) : List Str :=
  tokens.foldl (fun d token => if token ∈ d then d else d ++ [token]) []

/-- UTF-16 code units of a scalar value, as compared by JS string `<`. -/
def utf16Units (c : Char) : List ℕ :=
  if c.toNat < 65536 then [c.toNat]
  else [55296 + (c.toNat - 65536) / 1024, 56320 + (c.toNat - 65536) % 1024]

/-- UTF-16 code unit sequence of a string. -/
def strUnits (s : Str) : List ℕ :=
  s.flatMap utf16Units

/-- Lexicographic strict order on unit sequences. -/
def unitsLt : List ℕ → List ℕ → Bool
  | [], [] => false
  | [], _ :: _ => true
  | _ :: _, [] => false
  | a :: as, b :: bs => if a < b then true else if b < a then false else unitsLt as bs

/-- JS string `<` (UTF-16 code unit lexicographic order), the order behind the
default `Array.prototype.sort` comparator. -/
def jsLtStr (s t : Str) : Bool :=
  unitsLt (strUnits s) (strUnits t)

/-- Total preorder used to model the default JS sort on strings. -/
def jsLeStr (s t : Str) : Bool :=
  !jsLtStr t s

/-- Lexicographic strict order by code points, the order named by the spec. -/
def codePointLt (s t : Str) : Bool :=
  unitsLt (s.map Char.toNat) (t.map Char.toNat)

/-- Source `tokensToIds`: first-seen ids, then a lexicographic remap.  The JS
`[...dictionary].sort()` (stable, by UTF-16 unit order) is modelled by
`List.insertionSort`, which is stable; the sort key admits no ties here since
the first-seen dictionary has no duplicates. -/
def tokensToIds (tokens : List Str) : List ℕ × List Str :=
  let dictionary := firstSeenDict tokens
  let ids := tokens.map (fun token => dictionary.indexOf token + 1)
  let sortedDictionary := List.insertionSort (fun a b => jsLeStr a b = true) dictionary
  let oldToNew :=
    0 :: (List.range dictionary.length).map
      (fun i => sortedDictionary.indexOf (dictionary.getD i []) + 1)
  (ids.map (fun id => oldToNew.getD id 0), sortedDictionary)

/-- Cyclic index reduction `left + offset < length ? _ : _ - length` of
`compareRotation`. -/
def rotIndex (length pos : ℕ) : ℕ :=
  if pos < length then pos else pos - length

/-- Comparison loop of `compareRotation` from a given offset. -/
def cmpRotFrom (ids : List ℕ) (length left right : ℕ) : ℕ → ℕ → Int
  | 0, _ => 0
  | fuel + 1, offset =>
    if offset < length then
      let leftValue := ids.getD (rotIndex length (left + offset)) 0
      let rightValue := ids.getD (rotIndex length (right + offset)) 0
      if leftValue < rightValue then -1
      else if rightValue < leftValue then 1
      else cmpRotFrom ids length left right fuel (offset + 1)
    else 0

/-- Source `compareRotation`: lexicographic comparison of the rotations
starting at `left` and `right` over `length` offsets (the fuel `length`
matches the loop bound exactly). -/
def compareRotation (ids : List ℕ) (length left right : ℕ) : Int :=
  cmpRotFrom ids length left right length 0

/-- Source `buildCyclicSuffixArray`: rotation start indices sorted by
`compareRotation`.  The JS comparator sort is modelled by a stable sort; with
a unique sentinel the comparator is antisymmetric so any comparator-sorted
permutation is this one. -/
def buildCyclicSuffixArray (ids : List ℕ) : List ℕ :=
  List.insertionSort (fun l r => compareRotation ids ids.length l r ≤ 0) (List.range ids.length)

/-- Source `burrowsWheelerTransform`. -/
def burrowsWheelerTransform (ids : List ℕ) : List ℕ × ℕ :=
  if ids.length = 0 then ([], 0)
  else if ids.length = 1 then (ids, 0)
  else
    let order := buildCyclicSuffixArray ids
    let lastColumn :=
      order.map (fun start => ids.getD (if start = 0 then ids.length - 1 else start - 1) 0)
    (lastColumn, order.indexOf 0)

/-- Occurrence counting loop of `inverseBurrowsWheelerTransform`. -/
def buildCounts (lastColumn : List ℕ) (alphabetSize : ℕ) : List ℕ :=
  lastColumn.foldl (fun counts v => counts.set v (counts.getD v 0 + 1))
    (List.replicate alphabetSize 0)

/-- Exclusive prefix-sum loop (`starts`) of `inverseBurrowsWheelerTransform`. -/
def buildStarts (counts : List ℕ) : List ℕ :=
  (counts.foldl (fun (acc : List ℕ × ℕ) c => (acc.1 ++ [acc.2], acc.2 + c)) ([], 0)).1

/-- Construction of the `next` array of `inverseBurrowsWheelerTransform`. -/
def buildNext (lastColumn starts : List ℕ) (alphabetSize : ℕ) : List ℕ :=
  (lastColumn.foldl
    (fun (st : List ℕ × List ℕ × ℕ) symbol =>
      let occ := st.1
      let next := st.2.1
      let i := st.2.2
      let pos := starts.getD symbol 0 + occ.getD symbol 0
      (occ.set symbol (occ.getD symbol 0 + 1), next.set pos i, i + 1))
    (List.replicate alphabetSize 0, List.replicate lastColumn.length 0, 0)).2.1

/-- Reconstruction walk of `inverseBurrowsWheelerTransform`: the loop runs
`i = length-1 … 0`, so the first visited symbol lands at the last index. -/
def ibwtWalk (lastColumn next : List ℕ) : ℕ → ℕ → List ℕ
  | 0, _ => []
  | steps + 1, row =>
    let row2 := next.getD row 0
    ibwtWalk lastColumn next steps row2 ++ [lastColumn.getD row2 0]

/-- Source `inverseBurrowsWheelerTransform`. -/
def inverseBurrowsWheelerTransform (lastColumn : List ℕ) (primaryIndex alphabetSize : ℕ) :
    List ℕ :=
  if lastColumn.length = 0 then []
  else
    let counts := buildCounts lastColumn alphabetSize
    let starts := buildStarts counts
    let next := buildNext lastColumn starts alphabetSize
    ibwtWalk lastColumn next lastColumn.length primaryIndex

/-- Shift loop of `moveToFrontEncode` (`for j = pos; j > 0; j--`), acting on
the `list` and `positions` arrays. -/
def mtfShiftLoop : List ℕ × List ℕ → ℕ → List ℕ × List ℕ
  | st, 0 => st
  | st, j + 1 =>
    let lst := st.1
    let positions := st.2
    let moved := lst.getD j 0
    mtfShiftLoop (lst.set (j + 1) moved, positions.set moved (j + 1)) j

/-- Source `moveToFrontEncode`. -/
def moveToFrontEncode (sequence : List ℕ) (alphabetSize : ℕ) : List ℕ :=
  (sequence.foldl
    (fun (st : List ℕ × List ℕ × List ℕ) symbol =>
      let mtf := st.1
      let lst := st.2.1
      let positions := st.2.2
      let pos := positions.getD symbol 0
      if pos ≠ 0 then
        let shifted := mtfShiftLoop (lst, positions) pos
        (mtf ++ [pos], (shifted.1.set 0 symbol), shifted.2.set symbol 0)
      else (mtf ++ [pos], lst, positions))
    ([], List.range alphabetSize, List.range alphabetSize)).1

/-- Shift loop of `moveToFrontDecode`. -/
def mtfDecShift : List ℕ → ℕ → List ℕ
  | lst, 0 => lst
  | lst, j + 1 => mtfDecShift (lst.set (j + 1) (lst.getD j 0)) j

/-- Source `moveToFrontDecode`. -/
def moveToFrontDecode (mtf : List ℕ) (alphabetSize : ℕ) : List ℕ :=
  (mtf.foldl
    (fun (st : List ℕ × List ℕ) pos =>
      let sequence := st.1
      let lst := st.2
      let symbol := lst.getD pos 0
      if pos ≠ 0 then (sequence ++ [symbol], (mtfDecShift lst pos).set 0 symbol)
      else (sequence ++ [symbol], lst))
    ([], List.range alphabetSize)).1

/-- Payload type of the public API (`WBWTPayload`). -/
structure WBWTPayload where
  dictionary : List Str
  primaryIndex : ℕ
  mtf : List ℕ
deriving DecidableEq

/-- Sentinel id 0 (`SENTINEL_ID`). -/
def SENTINEL_ID : ℕ := 0

/-- Source `wbwtCompress`. -/
def wbwtCompress (text : Str) : WBWTPayload :=
  let rawTokens := tokenize text
  let tokens := normalizeTokens rawTokens
  if tokens.length = 0 then ⟨[], 0, []⟩
  else
    let pair := tokensToIds tokens
    let ids := pair.1
    let dictionary := pair.2
    let idsWithSentinel := ids ++ [SENTINEL_ID]
    let bwt := burrowsWheelerTransform idsWithSentinel
    let mtf := moveToFrontEncode bwt.1 (dictionary.length + 1)
    ⟨dictionary, bwt.2, mtf⟩

/-- Source `wbwtDecompress` (on a non-null payload). -/
def wbwtDecompress (payload : WBWTPayload) : Str :=
  if payload.dictionary.length = 0 ∨ payload.mtf.length = 0 then []
  else
    let alphabetSize := payload.dictionary.length + 1
    let lastColumn := moveToFrontDecode payload.mtf alphabetSize
    let ids := inverseBurrowsWheelerTransform lastColumn payload.primaryIndex alphabetSize
    let tokens :=
      (ids.filter (fun id => id ≠ SENTINEL_ID)).map
        (fun id => payload.dictionary.getD (id - 1) [])
    renderTokens tokens

/-- Constant `WBWT_MAGIC`. -/
def WBWT_MAGIC : ℕ := 0x57425754

/-- Constant `WBWT_VERSION`. -/
def WBWT_VERSION : ℕ := 4

/-- Constant `ENTROPY_MAX_TOTAL`. -/
def ENTROPY_MAX_TOTAL : ℕ := 2 ^ 15

/-- Constant `ENTROPY_TOP_VALUE`. -/
def ENTROPY_TOP_VALUE : ℕ := 0xFFFFFFFF

/-- Constant `ENTROPY_FIRST_QTR`. -/
def ENTROPY_FIRST_QTR : ℕ := 0x40000000

/-- Constant `ENTROPY_HALF`. -/
def ENTROPY_HALF : ℕ := 0x80000000

/-- Constant `ENTROPY_THIRD_QTR`. -/
def ENTROPY_THIRD_QTR : ℕ := 0xC0000000

/-- Digit-emitting loop of `writeVarint`: `(current & 0x7f) | 0x80` is
`current % 128 + 128`, and `current >>>= 7` is division by 128. -/
def writeVarintAuxF : ℕ → ℕ → List ℕ
  | 0, current => [current]
  | fuel + 1, current =>
    if current ≥ 128 then (current % 128 + 128) :: writeVarintAuxF fuel (current / 128)
    else [current]

/-- Digit-emitting loop of `writeVarint` with enough fuel: each round divides
`current` by 128. -/
def writeVarintAux (current : ℕ) : List ℕ :=
  writeVarintAuxF (current + 1) current

/-- Source `writeVarint`, appending to a `ByteWriter` modelled as a byte list;
the initial `value >>> 0` is the `% 2 ^ 32`. -/
def writeVarint (writer : List ℕ) (value : ℕ) : List ℕ :=
  writer ++ writeVarintAux (value % 2 ^ 32)

/-- Loop of `readVarint`.  Reading past the end of the buffer yields
`undefined`, which behaves as byte 0 in the bitwise operations (so the loop
stops); `result |= (byte & 0x7f) << shift` works in 32-bit semantics — the
shift count is taken mod 32 and the accumulation wraps mod `2 ^ 32`. -/
def readVarintAux (bytes : List ℕ) : ℕ → ℕ → ℕ → ℕ → ℕ × ℕ
  | 0, offset, result, shift =>
    ((result ||| (bytes.getD offset 0 % 128) <<< (shift % 32)) % 2 ^ 32, offset + 1)
  | fuel + 1, offset, result, shift =>
    let byte := bytes.getD offset 0
    let result2 := (result ||| (byte % 128) <<< (shift % 32)) % 2 ^ 32
    if byte % 256 ≥ 128 then readVarintAux bytes fuel (offset + 1) result2 (shift + 7)
    else (result2, offset + 1)

/-- Source `readVarint`: returns the decoded value and the new offset.  The
do-while loop continues only on continuation bytes, which all lie inside the
buffer (past the end the byte reads as 0), so fuel `bytes.length` covers
every iteration after the first. -/
def readVarint (bytes : List ℕ) (offset : ℕ) : ℕ × ℕ :=
  readVarintAux bytes bytes.length offset 0 0

/-- Source `readUint32LE`; for byte-valued entries the `| <<` combination and
the final `>>> 0` compute exactly this sum, and reads past the end are 0. -/
def readUint32LE (bytes : List ℕ) (offset : ℕ) : ℕ :=
  bytes.getD offset 0 + bytes.getD (offset + 1) 0 * 256 +
    bytes.getD (offset + 2) 0 * 65536 + bytes.getD (offset + 3) 0 * 16777216

/-- Source `ByteWriter.pushUint32LE`. -/
def pushUint32LE (writer : List ℕ) (value : ℕ) : List ℕ :=
  writer ++ [value % 256, value / 256 % 256, value / 65536 % 256, value / 16777216 % 256]

/-- UTF-8 bytes of one scalar value (`TextEncoder`). -/
def utf8EncodeChar (c : Char) : List ℕ :=
  let n := c.toNat
  if n < 128 then [n]
  else if n < 2048 then [192 + n / 64, 128 + n % 64]
  else if n < 65536 then [224 + n / 4096, 128 + n / 64 % 64, 128 + n % 64]
  else [240 + n / 262144, 128 + n / 4096 % 64, 128 + n / 64 % 64, 128 + n % 64]

/-- Source `TextEncoder.encode` on a string of scalar values. -/
def utf8Encode (s : Str) : List ℕ :=
  s.flatMap utf8EncodeChar

/-- Continuation-byte test for the UTF-8 decoder. -/
def isUtf8Cont (b : ℕ) : Bool :=
  128 ≤ b && b < 192

/-- Decoding step of `TextDecoder` (non-fatal mode): the longest valid
sequence at the head is decoded, anything else becomes U+FFFD and consumes
one byte.  The codec only ever decodes byte strings it produced itself with
`utf8Encode`, where this agrees with the WHATWG decoder. -/
def utf8DecodeAux : ℕ → List ℕ → Str
  | 0, _ => []
  | fuel + 1, bytes =>
    match bytes with
    | [] => []
    | b :: rest =>
      if b < 128 then Char.ofNat b :: utf8DecodeAux fuel rest
      else if 194 ≤ b ∧ b < 224 ∧ 1 ≤ rest.length ∧ isUtf8Cont (rest.getD 0 0) then
        Char.ofNat ((b - 192) * 64 + (rest.getD 0 0 - 128)) :: utf8DecodeAux fuel (rest.drop 1)
      else if 224 ≤ b ∧ b < 240 ∧ 2 ≤ rest.length ∧
          isUtf8Cont (rest.getD 0 0) ∧ isUtf8Cont (rest.getD 1 0) ∧
          (b = 224 → 160 ≤ rest.getD 0 0) ∧ (b = 237 → rest.getD 0 0 < 160) then
        Char.ofNat ((b - 224) * 4096 + (rest.getD 0 0 - 128) * 64 + (rest.getD 1 0 - 128)) ::
          utf8DecodeAux fuel (rest.drop 2)
      else if 240 ≤ b ∧ b < 245 ∧ 3 ≤ rest.length ∧
          isUtf8Cont (rest.getD 0 0) ∧ isUtf8Cont (rest.getD 1 0) ∧ isUtf8Cont (rest.getD 2 0) ∧
          (b = 240 → 144 ≤ rest.getD 0 0) ∧ (b = 244 → rest.getD 0 0 < 144) then
        Char.ofNat ((b - 240) * 262144 + (rest.getD 0 0 - 128) * 4096 +
            (rest.getD 1 0 - 128) * 64 + (rest.getD 2 0 - 128)) ::
          utf8DecodeAux fuel (rest.drop 3)
      else Char.ofNat 65533 :: utf8DecodeAux fuel rest

/-- Source `TextDecoder.decode`; each decoding step consumes at least one
byte, so fuel `bytes.length` covers the whole buffer. -/
def utf8Decode (bytes : List ℕ) : Str :=
  utf8DecodeAux bytes.length bytes

/-- Zero-run flushing loop of `mtfToSymbols` (`flushRun`): RUNA/RUNB digits of
the bijective base-2 representation, least significant first; the pushed
`digit - 1` is `(run - 1) % 2`. -/
def flushRunLoopF : ℕ → List ℕ → ℕ → List ℕ
  | 0, symbols, _ => symbols
  | fuel + 1, symbols, run =>
    if run > 0 then flushRunLoopF fuel (symbols ++ [(run - 1) % 2]) ((run - 1) / 2)
    else symbols

/-- Flushing loop with enough fuel: `run` strictly decreases. -/
def flushRunLoop (symbols : List ℕ) (run : ℕ) : List ℕ :=
  flushRunLoopF (run + 1) symbols run

/-- Source `mtfToSymbols`. -/
def mtfToSymbols (mtf : List ℕ) : List ℕ :=
  let st := mtf.foldl
    (fun (st : List ℕ × ℕ) value =>
      if value = 0 then (st.1, st.2 + 1)
      else if st.2 > 0 then (flushRunLoop st.1 st.2 ++ [value + 1], 0)
      else (st.1 ++ [value + 1], 0))
    ([], 0)
  if st.2 > 0 then flushRunLoop st.1 st.2 else st.1

/-- Zero-writing loop of `symbolsToMtf` (also used after the symbol loop). -/
def fillZerosF : ℕ → List ℕ → ℕ → ℕ → ℕ → List ℕ × ℕ
  | 0, mtf, mtfIndex, _, _ => (mtf, mtfIndex)
  | fuel + 1, mtf, mtfIndex, run, tokenCount =>
    if run > 0 ∧ mtfIndex < tokenCount then
      fillZerosF fuel (mtf.set mtfIndex 0) (mtfIndex + 1) (run - 1) tokenCount
    else (mtf, mtfIndex)

/-- Zero-writing loop of `symbolsToMtf`, with fuel `run` (which strictly
decreases every iteration). -/
def fillZeros (mtf : List ℕ) (mtfIndex run tokenCount : ℕ) : List ℕ × ℕ :=
  fillZerosF (run + 1) mtf mtfIndex run tokenCount

/-- Source `symbolsToMtf`: state is `(mtf, mtfIndex, run, base)`. -/
def symbolsToMtf (symbols : List ℕ) (tokenCount : ℕ) : List ℕ :=
  let st := symbols.foldl
    (fun (st : List ℕ × ℕ × ℕ × ℕ) symbol =>
      let mtf := st.1
      let mtfIndex := st.2.1
      let run := st.2.2.1
      let base := st.2.2.2
      if symbol ≤ 1 then
        (mtf, mtfIndex, run + (if symbol = 0 then 1 else 2) * base, base * 2)
      else
        let flushed :=
          if run > 0 then
            let f := fillZeros mtf mtfIndex run tokenCount
            (f.1, f.2, 0, 1)
          else (mtf, mtfIndex, run, base)
        if flushed.2.1 < tokenCount then
          (flushed.1.set flushed.2.1 (symbol - 1), flushed.2.1 + 1, flushed.2.2.1, flushed.2.2.2)
        else flushed)
    (List.replicate tokenCount 0, 0, 0, 1)
  (fillZeros st.1 st.2.1 st.2.2.1 tokenCount).1

/-- Zero-run filling loop inside `decodeMtfRle`. -/
def decodeMtfRleFillF : ℕ → List ℕ → ℕ → ℕ → ℕ → List ℕ × ℕ
  | 0, mtf, index, _, _ => (mtf, index)
  | fuel + 1, mtf, index, run, tokenCount =>
    if run > 0 ∧ index < tokenCount then
      decodeMtfRleFillF fuel (mtf.set index 0) (index + 1) (run - 1) tokenCount
    else (mtf, index)

/-- Zero-run filling loop inside `decodeMtfRle`, with fuel `run`. -/
def decodeMtfRleFill (mtf : List ℕ) (index run tokenCount : ℕ) : List ℕ × ℕ :=
  decodeMtfRleFillF (run + 1) mtf index run tokenCount

/-- Outer `while (index < tokenCount)` loop of `decodeMtfRle`.  The source
loop does not terminate when the varint stream is exhausted before
`tokenCount` values are produced (`readVarint` then yields value 0 forever,
which never advances `index`); the fuel parameter makes the embedding total,
with `none` meaning the loop is still running after `fuel` iterations. -/
def decodeMtfRleLoop (bytes : List ℕ) (tokenCount : ℕ) :
    ℕ → ℕ → List ℕ → ℕ → Option (List ℕ × ℕ)
  | 0, _, _, _ => none
  | fuel + 1, offset, mtf, index =>
    if index < tokenCount then
      let parsed := readVarint bytes offset
      let value := parsed.1
      let offset2 := parsed.2
      if value % 2 = 0 then
        let f := decodeMtfRleFill mtf index (value / 2) tokenCount
        decodeMtfRleLoop bytes tokenCount fuel offset2 f.1 f.2
      else decodeMtfRleLoop bytes tokenCount fuel offset2 (mtf.set index (value / 2)) (index + 1)
    else some (mtf, offset)

/-- Source `decodeMtfRle` with explicit fuel. -/
def decodeMtfRle (fuel : ℕ) (bytes : List ℕ) (offset tokenCount : ℕ) :
    Option (List ℕ × ℕ) :=
  decodeMtfRleLoop bytes tokenCount fuel offset (List.replicate tokenCount 0) 0

/-- JS `idx & -idx` in 32-bit two's complement: the lowest set bit of `idx`
for `0 < idx < 2 ^ 32`. -/
def lowbit (idx : ℕ) : ℕ :=
  idx &&& (2 ^ 32 - idx)

/-- Fenwick tree state (`FenwickTree`): `tree` and `freq` have length
`size + 1` with index 0 unused. -/
structure FenwickTree where
  size : ℕ
  tree : List ℕ
  freq : List ℕ
  total : ℕ
deriving DecidableEq

/-- Source `new FenwickTree(size)`. -/
def FenwickTree.make (size : ℕ) : FenwickTree :=
  ⟨size, List.replicate (size + 1) 0, List.replicate (size + 1) 0, 0⟩

/-- Climb loop `while (idx <= size) { tree[idx] += value; idx += idx & -idx }`.
The fuel `size + 1` is an upper bound on the iteration count whenever
`1 ≤ idx` (then `idx` strictly increases), which holds at every call site. -/
def bitChainAdd (tree : List ℕ) (size value : ℕ) : ℕ → ℕ → List ℕ
  | 0, _ => tree
  | fuel + 1, idx =>
    if idx ≤ size then
      bitChainAdd (tree.set idx (tree.getD idx 0 + value)) size value fuel (idx + lowbit idx)
    else tree

/-- Source `FenwickTree.reset`. -/
def FenwickTree.reset (t : FenwickTree) (value : ℕ) : FenwickTree :=
  (List.range' 1 t.size).foldl
    (fun t i =>
      { t with
        freq := t.freq.set i value
        total := t.total + value
        tree := bitChainAdd t.tree t.size value (t.size + 1) i })
    { t with
      tree := List.replicate (t.size + 1) 0
      freq := List.replicate (t.size + 1) 0
      total := 0 }

/-- Descent loop of `FenwickTree.sum`; each step clears the lowest set bit of
`idx`, so `idx` iterations of fuel always suffice. -/
def fenwickSumAux (tree : List ℕ) : ℕ → ℕ → ℕ → ℕ
  | 0, _, result => result
  | fuel + 1, idx, result =>
    if idx > 0 then fenwickSumAux tree fuel (idx - lowbit idx) (result + tree.getD idx 0)
    else result

/-- Source `FenwickTree.sum`. -/
def FenwickTree.sum (t : FenwickTree) (index : ℕ) : ℕ :=
  fenwickSumAux t.tree (index + 1) index 0

/-- Source `FenwickTree.add`. -/
def FenwickTree.add (t : FenwickTree) (index delta : ℕ) : FenwickTree :=
  { t with
    freq := t.freq.set index (t.freq.getD index 0 + delta)
    total := t.total + delta
    tree := bitChainAdd t.tree t.size delta (t.size + 1) index }

/-- Source `FenwickTree.rescale`: `(freq[i] + 1) >> 1` rounded up to 1. -/
def FenwickTree.rescale (t : FenwickTree) : FenwickTree :=
  (List.range' 1 t.size).foldl
    (fun t2 i =>
      let value0 := (t2.freq.getD i 0 + 1) / 2
      let value := if value0 = 0 then 1 else value0
      { t2 with
        freq := t2.freq.set i value
        total := t2.total + value
        tree := bitChainAdd t2.tree t2.size value (t2.size + 1) i })
    { t with tree := List.replicate (t.size + 1) 0, total := 0 }

/-- Initial `bit` of `FenwickTree.findByCumulative`: doubling until above
`size`, then one halving — the fuel `size + 1` covers every doubling chain. -/
def topBitAux (size : ℕ) : ℕ → ℕ → ℕ
  | 0, bit => bit / 2
  | fuel + 1, bit => if bit ≤ size then topBitAux size fuel (bit * 2) else bit / 2

/-- Largest power of two not above `size` (0 when `size = 0`), as computed by
the `bit` loop of `findByCumulative`. -/
def topBit (size : ℕ) : ℕ :=
  topBitAux size (size + 1) 1

/-- Binary-lift loop of `FenwickTree.findByCumulative`. -/
def findCumLoopF (tree : List ℕ) (size value : ℕ) : ℕ → ℕ → ℕ → ℕ → ℕ
  | 0, _, idx, _ => idx + 1
  | fuel + 1, bit, idx, acc =>
    if bit = 0 then idx + 1
    else
      let next := idx + bit
      if next ≤ size ∧ acc + tree.getD next 0 ≤ value then
        findCumLoopF tree size value fuel (bit / 2) next (acc + tree.getD next 0)
      else findCumLoopF tree size value fuel (bit / 2) idx acc

/-- Binary-lift loop of `findByCumulative`; `bit` halves every round, so fuel
`bit + 1` always suffices. -/
def findCumLoop (tree : List ℕ) (size value bit idx acc : ℕ) : ℕ :=
  findCumLoopF tree size value (bit + 1) bit idx acc

/-- Source `FenwickTree.findByCumulative`. -/
def FenwickTree.findByCumulative (t : FenwickTree) (value : ℕ) : ℕ :=
  findCumLoop t.tree t.size value (topBit t.size) 0 0

/-- MSB-first bit of a byte stream at absolute index `i`, 0 past the end:
the combined behaviour of `BitReader.readBit`. -/
def streamBit (bytes : List ℕ) (i : ℕ) : ℕ :=
  bytes.getD (i / 8) 0 / 2 ^ (7 - i % 8) % 2

/-- JS `reader.readBits(count)` starting at absolute bit position `pos`:
accumulates MSB-first with the final `>>> 0` wrap. -/
def readBitsFrom (bytes : List ℕ) (pos count : ℕ) : ℕ :=
  (List.range count).foldl (fun value i => (value * 2 + streamBit bytes (pos + i)) % 2 ^ 32) 0

/-- Packing of a bit list into bytes, MSB first, as performed by
`BitWriter.writeBit` / `BitWriter.finish`: a partial last byte is padded with
zeros on the right (the left shift by `8 - filled`). -/
def bitsToBytesF : ℕ → List ℕ → List ℕ
  | 0, _ => []
  | fuel + 1, bits =>
    if bits.length = 0 then []
    else if bits.length < 8 then
      [bits.foldl (fun acc b => acc * 2 + b) 0 * 2 ^ (8 - bits.length)]
    else (bits.take 8).foldl (fun acc b => acc * 2 + b) 0 :: bitsToBytesF fuel (bits.drop 8)

/-- Packing of a bit list into bytes with enough fuel (each byte consumes
eight bits). -/
def bitsToBytes (bits : List ℕ) : List ℕ :=
  bitsToBytesF bits.length bits

/-- Arithmetic encoder state: `low`, `high`, `pending` and the bits written
so far (the `BitWriter` content). -/
structure EncSt where
  low : ℕ
  high : ℕ
  pending : ℕ
  out : List ℕ
deriving DecidableEq

/-- Source `ArithmeticEncoder.outputBitAndPending`. -/
def encOutputBit (st : EncSt) (bit : ℕ) : EncSt :=
  let fill := if bit = 0 then 1 else 0
  { st with pending := 0, out := st.out ++ bit :: List.replicate st.pending fill }

/-- Renormalisation loop of `encodeSymbol`.  The loop body at least doubles
`high - low + 1`, which must stay at most `2 ^ 31` for the loop to continue,
so 64 rounds of fuel are never exhausted from a reachable state. -/
def encRenorm : EncSt → ℕ → EncSt
  | st, 0 => st
  | st, fuel + 1 =>
    if st.high < ENTROPY_HALF then
      let st2 := encOutputBit st 0
      encRenorm { st2 with low := st2.low * 2, high := st2.high * 2 + 1 } fuel
    else if st.low ≥ ENTROPY_HALF then
      let st2 := encOutputBit st 1
      encRenorm
        { st2 with
          low := (st2.low - ENTROPY_HALF) * 2
          high := (st2.high - ENTROPY_HALF) * 2 + 1 } fuel
    else if st.low ≥ ENTROPY_FIRST_QTR ∧ st.high < ENTROPY_THIRD_QTR then
      encRenorm
        { st with
          pending := st.pending + 1
          low := (st.low - ENTROPY_FIRST_QTR) * 2
          high := (st.high - ENTROPY_FIRST_QTR) * 2 + 1 } fuel
    else st

/-- Source `ArithmeticEncoder.encodeSymbol`. -/
def encodeSymbol (model : FenwickTree) (st : EncSt) (symbolIndex : ℕ) : EncSt :=
  let total := model.total
  let cum := model.sum (symbolIndex - 1)
  let freq := model.freq.getD symbolIndex 0
  let range := st.high - st.low + 1
  encRenorm
    { st with
      high := st.low + range * (cum + freq) / total - 1
      low := st.low + range * cum / total } 64

/-- Source `ArithmeticEncoder.finish`. -/
def encFinish (st : EncSt) : EncSt :=
  let st2 := { st with pending := st.pending + 1 }
  if st2.low < ENTROPY_FIRST_QTR then encOutputBit st2 0 else encOutputBit st2 1

/-- Arithmetic decoder state: `low`, `high`, the 32-bit window `value`, and
the absolute index `pos` of the next input bit. -/
structure DecSt where
  low : ℕ
  high : ℕ
  value : ℕ
  pos : ℕ
deriving DecidableEq

/-- Renormalisation loop of `decodeSymbol`, mirroring `encRenorm`; the
`value` update carries the source's explicit `>>> 0`. -/
def decRenorm (bytes : List ℕ) : DecSt → ℕ → DecSt
  | st, 0 => st
  | st, fuel + 1 =>
    if st.high < ENTROPY_HALF then
      decRenorm bytes
        { st with
          low := st.low * 2
          high := st.high * 2 + 1
          value := (st.value * 2 + streamBit bytes st.pos) % 2 ^ 32
          pos := st.pos + 1 } fuel
    else if st.low ≥ ENTROPY_HALF then
      decRenorm bytes
        { st with
          low := (st.low - ENTROPY_HALF) * 2
          high := (st.high - ENTROPY_HALF) * 2 + 1
          value := ((st.value - ENTROPY_HALF) * 2 + streamBit bytes st.pos) % 2 ^ 32
          pos := st.pos + 1 } fuel
    else if st.low ≥ ENTROPY_FIRST_QTR ∧ st.high < ENTROPY_THIRD_QTR then
      decRenorm bytes
        { st with
          low := (st.low - ENTROPY_FIRST_QTR) * 2
          high := (st.high - ENTROPY_FIRST_QTR) * 2 + 1
          value := ((st.value - ENTROPY_FIRST_QTR) * 2 + streamBit bytes st.pos) % 2 ^ 32
          pos := st.pos + 1 } fuel
    else st

/-- Source `ArithmeticDecoder.decodeSymbol`: returns the symbol index and the
new state. -/
def decodeSymbol (model : FenwickTree) (bytes : List ℕ) (st : DecSt) : ℕ × DecSt :=
  let total := model.total
  let range := st.high - st.low + 1
  let cumValue := ((st.value - st.low + 1) * total - 1) / range
  let symbolIndex := model.findByCumulative cumValue
  let cum := model.sum (symbolIndex - 1)
  let freq := model.freq.getD symbolIndex 0
  let st2 := decRenorm bytes
    { st with
      high := st.low + range * (cum + freq) / total - 1
      low := st.low + range * cum / total } 64
  (symbolIndex, st2)

/-- Source `new ArithmeticDecoder(reader)`: `value` is the first 32 bits. -/
def decInit (bytes : List ℕ) : DecSt :=
  ⟨0, ENTROPY_TOP_VALUE, readBitsFrom bytes 0 32, 32⟩

/-- Source `entropyEncodeSymbols`. -/
def entropyEncodeSymbols (symbols : List ℕ) (alphabetSize : ℕ) : List ℕ :=
  if symbols.length = 0 then []
  else
    let model0 := (FenwickTree.make alphabetSize).reset 1
    let final := symbols.foldl
      (fun (st : FenwickTree × EncSt) symbol =>
        let model := st.1
        let enc := encodeSymbol model st.2 (symbol + 1)
        let model2 := model.add (symbol + 1) 1
        (if model2.total ≥ ENTROPY_MAX_TOTAL then model2.rescale else model2, enc))
      (model0, ⟨0, ENTROPY_TOP_VALUE, 0, []⟩)
    bitsToBytes (encFinish final.2).out

/-- Source `entropyDecodeSymbols`. -/
def entropyDecodeSymbols (bytes : List ℕ) (symbolCount alphabetSize : ℕ) : List ℕ :=
  if symbolCount = 0 then []
  else
    let model0 := (FenwickTree.make alphabetSize).reset 1
    (List.range symbolCount).foldl
      (fun (st : FenwickTree × DecSt × List ℕ) _ =>
        let model := st.1
        let dec := decodeSymbol model bytes st.2.1
        let symbolIndex := dec.1
        let model2 := model.add symbolIndex 1
        (if model2.total ≥ ENTROPY_MAX_TOTAL then model2.rescale else model2,
         dec.2, st.2.2 ++ [symbolIndex - 1]))
      (model0, decInit bytes, []) |>.2.2

/-- Source `entropyDecodeBytes` (legacy v3 path, alphabet of 256 byte
values). -/
def entropyDecodeBytes (bytes : List ℕ) (outputLength : ℕ) : List ℕ :=
  if outputLength = 0 then []
  else
    let model0 := (FenwickTree.make 256).reset 1
    (List.range outputLength).foldl
      (fun (st : FenwickTree × DecSt × List ℕ) _ =>
        let model := st.1
        let dec := decodeSymbol model bytes st.2.1
        let symbolIndex := dec.1
        let model2 := model.add symbolIndex 1
        (if model2.total ≥ ENTROPY_MAX_TOTAL then model2.rescale else model2,
         dec.2, st.2.2 ++ [symbolIndex - 1]))
      (model0, decInit bytes, []) |>.2.2

/-- Shared-byte counting loop of `serializeWBWT` (`while prefix < maxPrefix
&& prevBytes[prefix] === bytes[prefix]`). -/
def commonPfxLen : List ℕ → List ℕ → ℕ
  | a :: as, b :: bs => if a = b then commonPfxLen as bs + 1 else 0
  | _, _ => 0

/-- Source `serializeWBWT`. -/
def serializeWBWT (payload : WBWTPayload) : List ℕ :=
  let alphabetSize := payload.dictionary.length + 1
  let symbols := mtfToSymbols payload.mtf
  let writer := pushUint32LE (pushUint32LE [] WBWT_MAGIC) WBWT_VERSION
  let writer := writeVarint writer payload.dictionary.length
  let writer := writeVarint writer payload.mtf.length
  let writer := writeVarint writer (payload.primaryIndex % 2 ^ 32)
  let writer := writeVarint writer symbols.length
  let writer := (payload.dictionary.foldl
    (fun (st : List ℕ × List ℕ) token =>
      let bytes := utf8Encode token
      let pfx := commonPfxLen st.2 bytes
      let sfx := bytes.drop pfx
      (writeVarint (writeVarint st.1 pfx) sfx.length ++ sfx, bytes))
    (writer, [])).1
  writer ++ entropyEncodeSymbols symbols (alphabetSize + 1)

/-- Front-coded dictionary reading loop of `deserializeWBWT` (v4): state is
`(offset, prevBytes, dictionary)`.  `subarray` clamps to the buffer, and the
zero-initialised `tokenBytes` keeps zeros where `prevBytes` or the suffix
fall short. -/
def readDictV4 (bytes : List ℕ) (dictCount : ℕ) (offset0 : ℕ) : ℕ × List Str :=
  let st := (List.range dictCount).foldl
    (fun (st : ℕ × List ℕ × List Str) _ =>
      let offset := st.1
      let prevBytes := st.2.1
      let pfxParsed := readVarint bytes offset
      let sfxParsed := readVarint bytes pfxParsed.2
      let sfxLen := sfxParsed.1
      let sfx := (bytes.drop sfxParsed.2).take sfxLen
      let tokenBytes :=
        (prevBytes.take pfxParsed.1 ++
            List.replicate (pfxParsed.1 - (prevBytes.take pfxParsed.1).length) 0) ++
          (sfx ++ List.replicate (sfxLen - sfx.length) 0)
      (sfxParsed.2 + sfxLen, tokenBytes, st.2.2 ++ [utf8Decode tokenBytes]))
    (offset0, [], [])
  (st.1, st.2.2)

/-- Plain dictionary reading loop of `deserializeWBWT` (v2/v3). -/
def readDictLegacy (bytes : List ℕ) (dictCount : ℕ) (offset0 : ℕ) : ℕ × List Str :=
  let st := (List.range dictCount).foldl
    (fun (st : ℕ × List Str) _ =>
      let parsed := readVarint bytes st.1
      let slice := (bytes.drop parsed.2).take parsed.1
      (parsed.2 + parsed.1, st.2 ++ [utf8Decode slice]))
    (offset0, [])
  st

/-- Source `deserializeWBWT`.  The result is `some (Except.error _)` for a
thrown error, `some (Except.ok _)` for a returned payload, and `none` when
the legacy `decodeMtfRle` loop exceeds `fuel` iterations (the source then
never returns). -/
def deserializeWBWT (fuel : ℕ) (bytes : List ℕ) : Option (Except String WBWTPayload) :=
  let magic := readUint32LE bytes 0
  if magic ≠ WBWT_MAGIC then some (Except.error "WBWT: invalid header")
  else
    let version := readUint32LE bytes 4
    if version ≠ 2 ∧ version ≠ 3 ∧ version ≠ WBWT_VERSION then
      some (Except.error "WBWT: unsupported version")
    else
      let dictParsed := readVarint bytes 8
      let dictCount := dictParsed.1
      let tokenParsed := readVarint bytes dictParsed.2
      let tokenCount := tokenParsed.1
      let primaryParsed := readVarint bytes tokenParsed.2
      let primaryIndex := primaryParsed.1
      if version = WBWT_VERSION then
        let symbolParsed := readVarint bytes primaryParsed.2
        let symbolCount := symbolParsed.1
        let dictRead := readDictV4 bytes dictCount symbolParsed.2
        let entropyBytes := bytes.drop dictRead.1
        let symbols := entropyDecodeSymbols entropyBytes symbolCount (dictCount + 2)
        some (Except.ok ⟨dictRead.2, primaryIndex, symbolsToMtf symbols tokenCount⟩)
      else
        let dictRead := readDictLegacy bytes dictCount primaryParsed.2
        let mtfPacked :=
          if version = 2 then bytes.drop dictRead.1
          else
            let packedParsed := readVarint bytes dictRead.1
            entropyDecodeBytes (bytes.drop packedParsed.2) packedParsed.1
        match decodeMtfRle fuel mtfPacked 0 tokenCount with
        | none => none
        | some mtfParsed => some (Except.ok ⟨dictRead.2, primaryIndex, mtfParsed.1⟩)

/-- Reference value stream for C10 (not from the source): the unbounded
RUNA/RUNB decode — digits accumulate a zero run in bijective base 2, any
other symbol flushes the run and appends `symbol - 1`, and a trailing run is
flushed at the end.  `symbolsToMtf` is this stream truncated or zero-padded
to `tokenCount`. -/
def runaRunbValues (symbols : List ℕ) : List ℕ :=
  let st := symbols.foldl
    (fun (st : List ℕ × ℕ × ℕ) symbol =>
      if symbol ≤ 1 then (st.1, st.2.1 + (if symbol = 0 then 1 else 2) * st.2.2, st.2.2 * 2)
      else (st.1 ++ List.replicate st.2.1 0 ++ [symbol - 1], 0, 1))
    ([], 0, 1)
  st.1 ++ List.replicate st.2.1 0

/-- Concatenation of the raw tokens of a token list (for the C5 statement). -/
def concatTokens (tokens : List Str) : Str :=
  tokens.flatten

/-- Truncation or zero-padding of a list to length `n` (statement helper for
C10). -/
def zeroPadTo (n : ℕ) (l : List ℕ) : List ℕ :=
  l.take n ++ List.replicate (n - l.length) 0

/-! Theorems.  Helper lemmas come first, then one theorem per claim (with
counterexample and witness theorems where applicable). -/

/-- Reading a varint from an empty buffer yields value 0 and advances one
position: this is what keeps the `decodeMtfRle` loop spinning. -/
theorem readVarint_nil (offset : ℕ) : readVarint [] offset = (0, offset + 1) := by
  simp [readVarint, readVarintAux]

/-- On an empty byte stream with an unreached token count, the
`decodeMtfRle` loop never finishes, whatever the fuel. -/
theorem decodeMtfRleLoop_nil_none (tc : ℕ) :
    ∀ fuel offset mtf idx, idx < tc → decodeMtfRleLoop [] tc fuel offset mtf idx = none := by
  intro fuel
  induction fuel with
  | zero => intro offset mtf idx h; rfl
  | succ fuel ih =>
    intro offset mtf idx h
    simp only [decodeMtfRleLoop, readVarint_nil, if_pos h]
    norm_num [decodeMtfRleFill, decodeMtfRleFillF]
    exact ih (offset + 1) mtf idx h

/-- C1: the claim `wbwtDecompress (wbwtCompress t) = t` fails on the
single-space input: the inverse BWT walks the LF chain in the wrong
direction (the reconstruction loop runs from `length - 1` down to `0` with a
successor map built for the ascending walk), reversing the recovered token
stream, so `" "` decompresses to `"1"`. -/
theorem C1_round_trip_fails_on_space :
    wbwtDecompress (wbwtCompress " ".data) = "1".data ∧
    wbwtDecompress (wbwtCompress " ".data) ≠ " ".data := by decide

/-- C3: forward-then-inverse BWT is not the identity: on `[1, 2, 0]` (which
contains the sentinel 0 exactly once, with `alphabetSize = 3` larger than
every id) the inverse walk returns the reverse `[0, 2, 1]`. -/
theorem C3_bwt_inverse_reverses_failing_input :
    (([1, 2, 0] : List ℕ).count 0 = 1) ∧
    (∀ v ∈ ([1, 2, 0] : List ℕ), v < 3) ∧
    inverseBurrowsWheelerTransform (burrowsWheelerTransform [1, 2, 0]).1
      (burrowsWheelerTransform [1, 2, 0]).2 3 = [0, 2, 1] ∧
    ([0, 2, 1] : List ℕ) ≠ [1, 2, 0] := by decide

/-- C6 (counterexample): the dictionary of
`wbwtCompress "Hello HELLO hello\n"` is not the claimed five-element set —
it also contains the space marker `"\x1Fs"`. -/
theorem C6_claimed_dictionary_set_wrong :
    TOKEN_WS_SPACE ∈ (wbwtCompress "Hello HELLO hello\n".data).dictionary ∧
    TOKEN_WS_SPACE ∉
      [TOKEN_CASE_TITLE, TOKEN_WS_NEWLINE, TOKEN_CASE_UPPER, "1".data, "hello".data] := by decide

/-- C6 (amended): the dictionary is exactly the six sorted entries
`"\x1Fc", "\x1Fn", "\x1Fs", "\x1Fu", "1", "hello"`, the three case forms of
"hello" collapsing onto the single entry `"hello"`.  (The round-trip part of
the claim fails — see C1.) -/
theorem C6_dictionary_exact :
    (wbwtCompress "Hello HELLO hello\n".data).dictionary =
      [TOKEN_CASE_TITLE, TOKEN_WS_NEWLINE, TOKEN_WS_SPACE, TOKEN_CASE_UPPER,
        "1".data, "hello".data] ∧
    (wbwtCompress "Hello HELLO hello\n".data).dictionary.count "hello".data = 1 := by decide

/-- C7 (counterexample): serializing the compression of the empty string
yields 12 bytes, not the claimed 14 (4 magic + 4 version + four varint
zeros). -/
theorem C7_serialized_length_not_14 :
    (serializeWBWT (wbwtCompress "".data)).length = 12 ∧
    (serializeWBWT (wbwtCompress "".data)).length ≠ 14 := by decide

/-- C7 (amended): the empty string compresses to an empty dictionary and an
empty mtf; the serialized frame is exactly the 12 bytes magic, version 4 and
four varint zeros; deserializing returns the same payload (for every fuel —
the v4 path never consumes fuel), and decompressing gives back `""`. -/
theorem C7_empty_string_canonical_form :
    (wbwtCompress "".data).dictionary = [] ∧
    (wbwtCompress "".data).mtf.length = 0 ∧
    serializeWBWT (wbwtCompress "".data) = [84, 87, 66, 87, 4, 0, 0, 0, 0, 0, 0, 0] ∧
    (serializeWBWT (wbwtCompress "".data)).length = 12 ∧
    (∀ fuel, deserializeWBWT fuel (serializeWBWT (wbwtCompress "".data)) =
      some (Except.ok (wbwtCompress "".data))) ∧
    wbwtDecompress (wbwtCompress "".data) = "".data :=
  ⟨by decide, by decide, by decide, by decide, fun _ => rfl, by decide⟩

/-- C8 (counterexample): a 5-byte buffer with a truncated header (magic plus
a single version byte) and a frame whose dictCount varint carries ten
continuation bytes are both accepted and deserialize to the empty payload
instead of throwing. -/
theorem C8_truncation_and_long_varint_accepted :
    deserializeWBWT 1 [84, 87, 66, 87, 4] = some (Except.ok ⟨[], 0, []⟩) ∧
    deserializeWBWT 1 [84, 87, 66, 87, 4, 0, 0, 0,
      128, 128, 128, 128, 128, 128, 128, 128, 128, 128, 0, 0, 0, 0] =
      some (Except.ok ⟨[], 0, []⟩) :=
  ⟨rfl, rfl⟩

/-- C8 (amended): `deserializeWBWT` throws exactly on a magic mismatch
("invalid header") and on a version other than 2, 3 or 4 ("unsupported
version", in particular versions 1 and 5); truncated frames and over-long
varints are not rejected. -/
theorem C8_rejects_exactly_bad_magic_or_version (bytes : List ℕ) (fuel : ℕ) :
    (readUint32LE bytes 0 ≠ WBWT_MAGIC →
      deserializeWBWT fuel bytes = some (Except.error "WBWT: invalid header")) ∧
    (readUint32LE bytes 0 = WBWT_MAGIC → readUint32LE bytes 4 ≠ 2 →
      readUint32LE bytes 4 ≠ 3 → readUint32LE bytes 4 ≠ 4 →
      deserializeWBWT fuel bytes = some (Except.error "WBWT: unsupported version")) := by
  constructor
  · intro h
    simp only [deserializeWBWT, if_pos h]
  · intro h h2 h3 h4
    simp only [deserializeWBWT, WBWT_MAGIC, WBWT_VERSION] at *
    simp [h, h2, h3, h4]

/-- C8 (witness): version 5 with correct magic is rejected as an unsupported
version. -/
theorem C8_rejects_witness :
    deserializeWBWT 1 [84, 87, 66, 87, 5, 0, 0, 0] =
      some (Except.error "WBWT: unsupported version") :=
  (C8_rejects_exactly_bad_magic_or_version [84, 87, 66, 87, 5, 0, 0, 0] 1).2
    (by decide) (by decide) (by decide) (by decide)

/-- C9: `deserializeWBWT` is not terminating on every buffer: on a v2 frame
with `tokenCount = 1` whose legacy RLE byte stream is empty, `decodeMtfRle`
reads varint value 0 forever without advancing, so no amount of fuel makes
the embedded loop finish (the source function never returns). -/
theorem C9_deserialize_diverges_on_truncated_v2 (fuel : ℕ) :
    deserializeWBWT fuel [84, 87, 66, 87, 2, 0, 0, 0, 0, 1, 0] = none := by
  have h : decodeMtfRle fuel [] 0 1 = none :=
    decodeMtfRleLoop_nil_none 1 fuel 0 (List.replicate 1 0) 0 (by omega)
  show (match decodeMtfRle fuel [] 0 1 with
    | none => none
    | some mtfParsed => some (Except.ok (⟨[], 0, mtfParsed.1⟩ : WBWTPayload))) = none
  rw [h]

theorem zeroPadTo_length (n : ℕ) (l : List ℕ) : (zeroPadTo n l).length = n := by
  simp [zeroPadTo]
  omega

theorem zeroPadTo_getElem? (n : ℕ) (l : List ℕ) (j : ℕ) :
    (zeroPadTo n l)[j]? = if j < n then some (l.getD j 0) else none := by
  rcases Nat.lt_or_ge j n with hj | hj
  · rcases Nat.lt_or_ge j l.length with hjl | hjl
    · have ht : j < (l.take n).length := by
        simp [List.length_take]
        omega
      rw [zeroPadTo, List.getElem?_append, if_pos ht, List.getElem?_take, if_pos hj, if_pos hj,
        List.getD_eq_getElem?_getD, List.getElem?_eq_getElem hjl]
      rfl
    · have ht : (l.take n).length ≤ j := by
        simp [List.length_take]
        omega
      rw [zeroPadTo, List.getElem?_append_right ht, List.getElem?_replicate, if_pos hj]
      have : l.getD j 0 = 0 := List.getD_eq_default _ _ hjl
      rw [this, if_pos]
      simp [List.length_take]
      omega
  · rw [if_neg (by omega), List.getElem?_eq_none]
    rw [zeroPadTo_length]
    omega

theorem getD_append_replicate_zero (k : ℕ) (l : List ℕ) (j : ℕ) :
    (l ++ List.replicate k 0).getD j 0 = l.getD j 0 := by
  rcases Nat.lt_or_ge j l.length with hjl | hjl
  · rw [List.getD_eq_getElem?_getD, List.getElem?_append, if_pos hjl, ← List.getD_eq_getElem?_getD]
  · rw [List.getD_eq_getElem?_getD, List.getElem?_append_right hjl, List.getElem?_replicate,
      List.getD_eq_default _ _ hjl]
    split <;> simp

theorem zeroPadTo_append_replicate (n k : ℕ) (l : List ℕ) :
    zeroPadTo n (l ++ List.replicate k 0) = zeroPadTo n l := by
  apply List.ext_getElem?
  intro j
  rw [zeroPadTo_getElem?, zeroPadTo_getElem?, getD_append_replicate_zero]

theorem zeroPadTo_snoc (n : ℕ) (l : List ℕ) (v : ℕ) (h : l.length < n) :
    zeroPadTo n (l ++ [v]) = (zeroPadTo n l).set l.length v := by
  apply List.ext_getElem?
  intro j
  rw [zeroPadTo_getElem?, List.getElem?_set, zeroPadTo_getElem?, zeroPadTo_length]
  rcases Nat.decEq l.length j with hlj | hlj
  · rw [if_neg hlj]
    rcases Nat.lt_or_ge j n with hj | hj
    · rw [if_pos hj, if_pos hj]
      congr 1
      rcases Nat.lt_or_ge j l.length with hjl | hjl
      · rw [List.getD_eq_getElem?_getD, List.getElem?_append, if_pos hjl,
          ← List.getD_eq_getElem?_getD]
      · have hjl2 : l.length + 1 ≤ j := by omega
        rw [List.getD_eq_default _ _ hjl, List.getD_eq_default]
        simp only [List.length_append, List.length_cons, List.length_nil]
        omega
    · rw [if_neg (by omega), if_neg (by omega)]
  · subst hlj
    rw [if_pos rfl, if_pos h, if_pos h]
    congr 1
    rw [List.getD_eq_getElem?_getD, List.getElem?_append_right (Nat.le_refl _)]
    simp

theorem zeroPadTo_getD (n : ℕ) (l : List ℕ) (j : ℕ) :
    (zeroPadTo n l).getD j 0 = if j < n then l.getD j 0 else 0 := by
  rw [List.getD_eq_getElem?_getD, zeroPadTo_getElem?]
  split <;> simp

theorem zeroPadTo_nil (n : ℕ) : zeroPadTo n [] = List.replicate n 0 := by
  simp [zeroPadTo]

theorem zeroPadTo_append_of_le (n : ℕ) (l l2 : List ℕ) (h : n ≤ l.length) :
    zeroPadTo n (l ++ l2) = zeroPadTo n l := by
  apply List.ext_getElem?
  intro j
  rw [zeroPadTo_getElem?, zeroPadTo_getElem?]
  rcases Nat.lt_or_ge j n with hj | hj
  · have he : (l ++ l2).getD j 0 = l.getD j 0 := List.getD_append _ _ _ _ (by omega)
    rw [he]
  · rw [if_neg (by omega), if_neg (by omega)]

theorem set_zero_eq_self (l : List ℕ) (i : ℕ) (h : l.getD i 0 = 0) : l.set i 0 = l := by
  apply List.ext_getElem?
  intro j
  rw [List.getElem?_set]
  rcases Nat.decEq i j with hij | hij
  · rw [if_neg hij]
  · subst hij
    rw [if_pos rfl]
    rcases Nat.lt_or_ge i l.length with hi | hi
    · rw [if_pos hi, List.getElem?_eq_getElem hi]
      rw [List.getD_eq_getElem?_getD, List.getElem?_eq_getElem hi] at h
      simp at h ⊢
      omega
    · rw [if_neg (by omega), List.getElem?_eq_none]
      omega

theorem fillZerosF_eq (fuel : ℕ) :
    ∀ run mtf idx tc, run ≤ fuel → idx ≤ tc → (∀ j, idx ≤ j → mtf.getD j 0 = 0) →
      fillZerosF fuel mtf idx run tc = (mtf, min (idx + run) tc) := by
  induction fuel with
  | zero =>
    intro run mtf idx tc hrun hidx _
    have : run = 0 := by omega
    subst this
    simp [fillZerosF]
    omega
  | succ fuel ih =>
    intro run mtf idx tc hrun hidx hz
    rw [fillZerosF]
    by_cases hc : run > 0 ∧ idx < tc
    · rw [if_pos hc]
      have hset : mtf.set idx 0 = mtf := set_zero_eq_self _ _ (hz idx (Nat.le_refl _))
      rw [hset]
      rw [ih (run - 1) mtf (idx + 1) tc (by omega) (by omega)
        (fun j hj => hz j (by omega))]
      congr 1
      omega
    · rw [if_neg hc]
      have : min (idx + run) tc = idx := by omega
      rw [this]

theorem fillZeros_eq (run : ℕ) (mtf : List ℕ) (idx tc : ℕ) (hidx : idx ≤ tc)
    (hz : ∀ j, idx ≤ j → mtf.getD j 0 = 0) :
    fillZeros mtf idx run tc = (mtf, min (idx + run) tc) :=
  fillZerosF_eq (run + 1) run mtf idx tc (by omega) hidx hz

theorem fillZeros_zeroPadTo (out : List ℕ) (run tc : ℕ) :
    fillZeros (zeroPadTo tc out) (min out.length tc) run tc =
      (zeroPadTo tc (out ++ List.replicate run 0), min (out.length + run) tc) := by
  rw [fillZeros_eq run _ _ _ (by omega)
    (fun j hj => by
      rw [zeroPadTo_getD]
      split
      · exact List.getD_eq_default _ _ (by omega)
      · rfl)]
  rw [zeroPadTo_append_replicate]
  congr 1
  omega

theorem c10_fold (tc : ℕ) (symbols : List ℕ) :
    ∀ out run base, 1 ≤ base → (run = 0 → base = 1) →
      symbols.foldl
        (fun (st : List ℕ × ℕ × ℕ × ℕ) symbol =>
          let mtf := st.1
          let mtfIndex := st.2.1
          let run := st.2.2.1
          let base := st.2.2.2
          if symbol ≤ 1 then
            (mtf, mtfIndex, run + (if symbol = 0 then 1 else 2) * base, base * 2)
          else
            let flushed :=
              if run > 0 then
                let f := fillZeros mtf mtfIndex run tc
                (f.1, f.2, 0, 1)
              else (mtf, mtfIndex, run, base)
            if flushed.2.1 < tc then
              (flushed.1.set flushed.2.1 (symbol - 1), flushed.2.1 + 1,
                flushed.2.2.1, flushed.2.2.2)
            else flushed)
        (zeroPadTo tc out, min out.length tc, run, base) =
      (let r := symbols.foldl
        (fun (st : List ℕ × ℕ × ℕ) symbol =>
          if symbol ≤ 1 then (st.1, st.2.1 + (if symbol = 0 then 1 else 2) * st.2.2, st.2.2 * 2)
          else (st.1 ++ List.replicate st.2.1 0 ++ [symbol - 1], 0, 1))
        (out, run, base)
       (zeroPadTo tc r.1, min r.1.length tc, r.2.1, r.2.2)) := by
  induction symbols with
  | nil => intro out run base _ _; rfl
  | cons s rest ih =>
    intro out run base hb hrb
    rw [List.foldl_cons, List.foldl_cons]
    by_cases hs : s ≤ 1
    · simp only [hs, if_true]
      exact ih out (run + (if s = 0 then 1 else 2) * base) (base * 2) (by omega)
        (fun h0 => by
          rcases Nat.eq_zero_or_pos run with hr | hr
          · have : (if s = 0 then 1 else 2) * base ≥ 1 := by
              split <;> omega
            omega
          · omega)
    · simp only [hs, if_false]
      have hflush :
          (if run > 0 then
            let f := fillZeros (zeroPadTo tc out) (min out.length tc) run tc
            (f.1, f.2, 0, 1)
          else (zeroPadTo tc out, min out.length tc, run, base)) =
          (zeroPadTo tc (out ++ List.replicate run 0),
            min (out.length + run) tc, 0, 1) := by
        rcases Nat.eq_zero_or_pos run with hr | hr
        · subst hr
          rw [if_neg (by omega)]
          simp [hrb rfl, zeroPadTo_append_replicate]
        · rw [if_pos hr]
          rw [fillZeros_zeroPadTo]
      rw [hflush]
      set out2 := out ++ List.replicate run 0 with hout2
      have hlen2 : out2.length = out.length + run := by
        simp [hout2]
      by_cases hfit : min (out.length + run) tc < tc
      · rw [if_pos hfit]
        have hlt : out2.length < tc := by omega
        have hmin : min (out.length + run) tc = out2.length := by omega
        rw [hmin]
        have hsnoc : (zeroPadTo tc out2).set out2.length (s - 1) =
            zeroPadTo tc (out2 ++ [s - 1]) := (zeroPadTo_snoc tc out2 (s - 1) hlt).symm
        rw [hsnoc]
        have := ih (out2 ++ [s - 1]) 0 1 (by omega) (fun _ => rfl)
        have hmin2 : min (out2 ++ [s - 1]).length tc = out2.length + 1 := by
          simp
          omega
        rw [hmin2] at this
        rw [this]
      · rw [if_neg hfit]
        have hge : tc ≤ out2.length := by omega
        have hmin : min (out.length + run) tc = tc := by omega
        have heq : zeroPadTo tc (out2 ++ [s - 1]) = zeroPadTo tc out2 :=
          zeroPadTo_append_of_le tc out2 [s - 1] hge
        have := ih (out2 ++ [s - 1]) 0 1 (by omega) (fun _ => rfl)
        rw [heq] at this
        have hmin2 : min (out2 ++ [s - 1]).length tc = tc := by
          simp
          omega
        rw [hmin2] at this
        rw [hmin, this]

theorem symbolsToMtf_eq_zeroPadTo (symbols : List ℕ) (tokenCount : ℕ) :
    symbolsToMtf symbols tokenCount = zeroPadTo tokenCount (runaRunbValues symbols) := by
  have h := c10_fold tokenCount symbols [] 0 1 (by omega) (fun _ => rfl)
  rw [zeroPadTo_nil] at h
  simp only [List.length_nil, Nat.zero_min] at h
  simp only [symbolsToMtf, runaRunbValues, h]
  rw [fillZeros_zeroPadTo, zeroPadTo_append_replicate]

/-- C10: `symbolsToMtf` is total and always returns an array of exactly
`tokenCount` entries: the decoded RUNA/RUNB value stream is truncated at
`tokenCount` (excess zero-run digits and literals are silently discarded)
and zero-padded when it falls short, so a corrupt or truncated v4 symbol
stream still yields a zero-padded MTF array rather than an error. -/
theorem C10_symbolsToMtf_total_zero_padded (symbols : List ℕ) (tokenCount : ℕ) :
    (symbolsToMtf symbols tokenCount).length = tokenCount ∧
    symbolsToMtf symbols tokenCount =
      (runaRunbValues symbols).take tokenCount ++
        List.replicate (tokenCount - (runaRunbValues symbols).length) 0 := by
  refine ⟨?_, ?_⟩
  · rw [symbolsToMtf_eq_zeroPadTo, zeroPadTo_length]
  · rw [symbolsToMtf_eq_zeroPadTo, zeroPadTo]

theorem alnum_not_ws (c : Char) (h : isAsciiAlnum c = true) : isJsWhitespace c = false := by
  have hr : ((65 ≤ c.toNat ∧ c.toNat ≤ 90) ∨ (97 ≤ c.toNat ∧ c.toNat ≤ 122)) ∨
      (48 ≤ c.toNat ∧ c.toNat ≤ 57) := by
    simpa only [isAsciiAlnum, isAsciiLetter, isAsciiDigit, Bool.or_eq_true, Bool.and_eq_true,
      decide_eq_true_eq] using h
  by_contra hne
  have ht : isJsWhitespace c = true := by
    cases hb : isJsWhitespace c
    · exact absurd hb hne
    · rfl
  have hmem : c.toNat ∈ jsWhitespaceCodes := by
    simpa [isJsWhitespace] using ht
  simp only [jsWhitespaceCodes, List.mem_cons, List.not_mem_nil, or_false] at hmem
  omega

theorem tokenizeF_ws_tokens (fuel : ℕ) :
    ∀ text token, token ∈ tokenizeF fuel text →
      ∀ c, token.head? = some c → isJsWhitespace c = true →
        ∀ d ∈ token, isJsWhitespace d = true := by
  induction fuel with
  | zero => intro text token hmem; simp [tokenizeF] at hmem
  | succ fuel ih =>
    intro text token hmem c hc hwc d hd
    match text with
    | [] => simp [tokenizeF] at hmem
    | a :: rest =>
      rw [tokenizeF] at hmem
      by_cases ha : isAsciiAlnum a
      · rw [if_pos ha] at hmem
        rcases List.mem_cons.mp hmem with htok | htok
        · subst htok
          rw [List.takeWhile_cons, if_pos ha] at hc
          simp at hc
          rw [← hc] at hwc
          rw [alnum_not_ws a ha] at hwc
          cases hwc
        · exact ih _ token htok c hc hwc d hd
      · rw [if_neg ha] at hmem
        by_cases hw : isJsWhitespace a
        · rw [if_pos hw] at hmem
          rcases List.mem_cons.mp hmem with htok | htok
          · subst htok
            exact List.mem_takeWhile_imp hd
          · exact ih _ token htok c hc hwc d hd
        · rw [if_neg hw] at hmem
          rcases List.mem_cons.mp hmem with htok | htok
          · subst htok
            rw [List.takeWhile_cons, if_pos (by simp [isOtherClass, ha, hw])] at hc
            simp at hc
            rw [← hc] at hwc
            simp [isJsWhitespace] at hwc
            simp [isJsWhitespace, hwc] at hw
          · exact ih _ token htok c hc hwc d hd

/-- C5 (counterexample): the tokenizer does not split whitespace runs by
class: `" \n"` becomes the single mixed token `" \n"`, not two tokens. -/
theorem C5_mixed_whitespace_single_token :
    tokenize [' ', '\n'] = [[' ', '\n']] ∧
    tokenize [' ', '\n'] ≠ [[' '], ['\n']] ∧
    ¬ (∀ token ∈ tokenize [' ', '\n'],
        (∀ c ∈ token, c = ' ') ∨ (∀ c ∈ token, c = '\n') ∨ (∀ c ∈ token, c = '\t')) := by
  decide

/-- C5 (amended): the third `TOKEN_PATTERN` alternative is `\s+`, so every
token that starts with a whitespace character consists entirely of
whitespace characters — one maximal run that may mix spaces, newlines and
tabs; distinct classes are not split into separate tokens (witnessed by the
mixed token of `" \n"`). -/
theorem C5_whitespace_tokens_are_ws_runs (text : Str) :
    (∀ token ∈ tokenize text, ∀ c, token.head? = some c → isJsWhitespace c = true →
      ∀ d ∈ token, isJsWhitespace d = true) ∧
    tokenize [' ', '\n'] = [[' ', '\n']] :=
  ⟨fun token hmem => tokenizeF_ws_tokens text.length text token hmem, by decide⟩

/-- C5 (witness): instantiating the amended theorem on the mixed run `" \n"`
shows its second character is whitespace. -/
theorem C5_whitespace_tokens_witness : isJsWhitespace '\n' = true :=
  (C5_whitespace_tokens_are_ws_runs [' ', '\n']).1 [' ', '\n'] (by decide) ' '
    (by decide) (by decide) '\n' (by decide)

theorem unitsLt_irrefl : ∀ u : List ℕ, unitsLt u u = false := by
  intro u
  induction u with
  | nil => rfl
  | cons a as ih => simp [unitsLt, ih]

theorem unitsLt_asymm : ∀ u v : List ℕ, unitsLt u v = true → unitsLt v u = false := by
  intro u
  induction u with
  | nil => intro v h; cases v <;> simp [unitsLt] at h ⊢
  | cons a as ih =>
    intro v h
    cases v with
    | nil => simp [unitsLt] at h
    | cons b bs =>
      simp only [unitsLt] at h ⊢
      rcases Nat.lt_trichotomy a b with hab | hab | hab
      · rw [if_neg (by omega), if_pos hab]
      · subst hab
        rw [if_neg (by omega), if_neg (by omega)] at h ⊢
        exact ih bs h
      · rw [if_neg (by omega), if_pos hab] at h
        cases h

theorem unitsLt_trichotomy : ∀ u v : List ℕ, unitsLt u v = true ∨ u = v ∨ unitsLt v u = true := by
  intro u
  induction u with
  | nil => intro v; cases v <;> simp [unitsLt]
  | cons a as ih =>
    intro v
    cases v with
    | nil => simp [unitsLt]
    | cons b bs =>
      simp only [unitsLt]
      rcases Nat.lt_trichotomy a b with hab | hab | hab
      · left
        rw [if_pos hab]
      · subst hab
        rw [if_neg (by omega), if_neg (by omega)]
        rcases ih bs with h | h | h
        · exact Or.inl h
        · exact Or.inr (Or.inl (by rw [h]))
        · refine Or.inr (Or.inr ?_)
          rw [if_neg (by omega), if_neg (by omega)]
          exact h
      · right; right
        rw [if_pos hab]

theorem unitsLt_trans : ∀ u v w : List ℕ, unitsLt u v = true → unitsLt v w = true →
    unitsLt u w = true := by
  intro u
  induction u with
  | nil =>
    intro v w huv hvw
    cases v with
    | nil => exact hvw
    | cons b bs =>
      cases w with
      | nil => simp [unitsLt] at hvw
      | cons cv cs => rfl
  | cons a as ih =>
    intro v w huv hvw
    cases v with
    | nil => simp [unitsLt] at huv
    | cons b bs =>
      cases w with
      | nil => simp [unitsLt] at hvw
      | cons cv cs =>
        simp only [unitsLt] at huv hvw ⊢
        rcases Nat.lt_trichotomy a b with hab | hab | hab
        · rcases Nat.lt_trichotomy b cv with hbc | hbc | hbc
          · rw [if_pos (by omega)]
          · subst hbc
            rw [if_pos hab]
          · rw [if_neg (by omega), if_pos hbc] at hvw
            cases hvw
        · subst hab
          rcases Nat.lt_trichotomy a cv with hbc | hbc | hbc
          · rw [if_pos hbc]
          · subst hbc
            rw [if_neg (by omega), if_neg (by omega)] at huv hvw ⊢
            exact ih bs cs huv hvw
          · rw [if_neg (by omega), if_pos hbc] at hvw
            cases hvw
        · rw [if_neg (by omega), if_pos hab] at huv
          cases huv

theorem char_eq_of_toNat_eq (c d : Char) (h : c.toNat = d.toNat) : c = d :=
  Char.eq_of_val_eq (UInt32.eq_of_toBitVec_eq (BitVec.eq_of_toNat_eq h))

theorem char_valid_range (c : Char) :
    c.toNat < 55296 ∨ (57343 < c.toNat ∧ c.toNat < 1114112) := by
  rcases c.valid with h | ⟨h1, h2⟩
  · exact Or.inl h
  · exact Or.inr ⟨h1, h2⟩

theorem utf16_pfx_cancel (c d : Char) (x y : List ℕ)
    (h : utf16Units c ++ x = utf16Units d ++ y) : c = d ∧ x = y := by
  have hc := char_valid_range c
  have hd := char_valid_range d
  by_cases h1 : c.toNat < 65536 <;> by_cases h2 : d.toNat < 65536 <;>
    simp only [utf16Units, h1, h2, if_pos, if_neg, if_true, if_false] at h
  · rw [List.cons_append, List.cons_append] at h
    have hh := List.head_eq_of_cons_eq h
    have ht := List.tail_eq_of_cons_eq h
    exact ⟨char_eq_of_toNat_eq c d hh, by simpa using ht⟩
  · rw [List.cons_append, List.cons_append] at h
    have hh := List.head_eq_of_cons_eq h
    have hdiv : (d.toNat - 65536) / 1024 < 1024 := by omega
    omega
  · rw [List.cons_append, List.cons_append] at h
    have hh := List.head_eq_of_cons_eq h
    have hdiv : (c.toNat - 65536) / 1024 < 1024 := by omega
    omega
  · rw [List.cons_append, List.cons_append, List.cons_append, List.cons_append] at h
    have hh := List.head_eq_of_cons_eq h
    have ht := List.tail_eq_of_cons_eq h
    have hh2 := List.head_eq_of_cons_eq ht
    have ht2 := List.tail_eq_of_cons_eq ht
    have heq : c.toNat = d.toNat := by
      have e1 : (c.toNat - 65536) / 1024 = (d.toNat - 65536) / 1024 := by omega
      have e2 : (c.toNat - 65536) % 1024 = (d.toNat - 65536) % 1024 := by omega
      omega
    exact ⟨char_eq_of_toNat_eq c d heq, ht2⟩

theorem strUnits_injective : ∀ s t : Str, strUnits s = strUnits t → s = t := by
  intro s
  induction s with
  | nil =>
    intro t h
    cases t with
    | nil => rfl
    | cons d t2 =>
      exfalso
      rw [strUnits, strUnits, List.flatMap_nil, List.flatMap_cons] at h
      by_cases h2 : d.toNat < 65536 <;>
        simp [utf16Units, h2] at h
  | cons c s2 ih =>
    intro t h
    cases t with
    | nil =>
      exfalso
      rw [strUnits, strUnits, List.flatMap_nil, List.flatMap_cons] at h
      by_cases h2 : c.toNat < 65536 <;>
        simp [utf16Units, h2] at h
    | cons d t2 =>
      rw [strUnits, strUnits, List.flatMap_cons, List.flatMap_cons] at h
      obtain ⟨hcd, hrest⟩ := utf16_pfx_cancel c d _ _ h
      rw [hcd, ih t2 hrest]

theorem jsLeStr_total (a b : Str) : jsLeStr a b = true ∨ jsLeStr b a = true := by
  simp only [jsLeStr, jsLtStr, Bool.not_eq_true']
  rcases unitsLt_trichotomy (strUnits a) (strUnits b) with h | h | h
  · left
    exact unitsLt_asymm _ _ h
  · left
    rw [h]
    exact unitsLt_irrefl _
  · right
    exact unitsLt_asymm _ _ h

theorem jsLeStr_trans (a b c : Str) (h1 : jsLeStr a b = true) (h2 : jsLeStr b c = true) :
    jsLeStr a c = true := by
  simp only [jsLeStr, Bool.not_eq_true', jsLtStr] at h1 h2 ⊢
  rcases unitsLt_trichotomy (strUnits c) (strUnits a) with h | h | h
  · exfalso
    rcases unitsLt_trichotomy (strUnits b) (strUnits c) with hb | hb | hb
    · have := unitsLt_trans _ _ _ hb h
      rw [this] at h1
      cases h1
    · rw [← hb] at h
      rw [h] at h1
      cases h1
    · rw [hb] at h2
      cases h2
  · rw [h]
    exact unitsLt_irrefl _
  · exact unitsLt_asymm _ _ h

theorem jsLeStr_antisymm (a b : Str) (h1 : jsLeStr a b = true) (h2 : jsLeStr b a = true) :
    a = b := by
  simp only [jsLeStr, Bool.not_eq_true', jsLtStr] at h1 h2
  rcases unitsLt_trichotomy (strUnits a) (strUnits b) with h | h | h
  · rw [h] at h2
    cases h2
  · exact strUnits_injective _ _ h
  · rw [h] at h1
    cases h1

theorem jsLtStr_of_le_of_ne (a b : Str) (h1 : jsLeStr a b = true) (h2 : a ≠ b) :
    jsLtStr a b = true := by
  simp only [jsLeStr, Bool.not_eq_true', jsLtStr] at h1 ⊢
  rcases unitsLt_trichotomy (strUnits a) (strUnits b) with h | h | h
  · exact h
  · exact absurd (strUnits_injective _ _ h) h2
  · rw [h] at h1
    cases h1

theorem firstSeenAux_mem (tokens : List Str) :
    ∀ acc t, (t ∈ tokens.foldl (fun d token => if token ∈ d then d else d ++ [token]) acc) ↔
      (t ∈ acc ∨ t ∈ tokens) := by
  induction tokens with
  | nil => intro acc t; simp
  | cons tok rest ih =>
    intro acc t
    rw [List.foldl_cons]
    by_cases hmem : tok ∈ acc
    · rw [if_pos hmem, ih]
      constructor
      · rintro (h | h)
        · exact Or.inl h
        · exact Or.inr (List.mem_cons_of_mem _ h)
      · rintro (h | h)
        · exact Or.inl h
        · rcases List.mem_cons.mp h with h | h
          · subst h
            exact Or.inl hmem
          · exact Or.inr h
    · rw [if_neg hmem, ih]
      simp only [List.mem_append, List.mem_singleton, List.mem_cons]
      tauto

theorem firstSeenAux_nodup (tokens : List Str) :
    ∀ acc, acc.Nodup →
      (tokens.foldl (fun d token => if token ∈ d then d else d ++ [token]) acc).Nodup := by
  induction tokens with
  | nil => intro acc h; exact h
  | cons tok rest ih =>
    intro acc h
    rw [List.foldl_cons]
    by_cases hmem : tok ∈ acc
    · rw [if_pos hmem]
      exact ih acc h
    · rw [if_neg hmem]
      refine ih _ ?_
      rw [List.nodup_append]
      exact ⟨h, List.nodup_singleton _, by simpa using hmem⟩

theorem mem_firstSeenDict (tokens : List Str) (t : Str) :
    t ∈ firstSeenDict tokens ↔ t ∈ tokens := by
  rw [firstSeenDict, firstSeenAux_mem]
  simp

theorem nodup_firstSeenDict (tokens : List Str) : (firstSeenDict tokens).Nodup :=
  firstSeenAux_nodup tokens [] List.nodup_nil

theorem tokensToIds_dict_sorted (tokens : List Str) :
    List.Pairwise (fun a b => jsLeStr a b = true) (tokensToIds tokens).2 := by
  letI : IsTotal Str (fun a b => jsLeStr a b = true) := ⟨jsLeStr_total⟩
  letI : IsTrans Str (fun a b => jsLeStr a b = true) := ⟨jsLeStr_trans⟩
  exact List.sorted_insertionSort _ _

theorem tokensToIds_dict_perm (tokens : List Str) :
    ((tokensToIds tokens).2).Perm (firstSeenDict tokens) :=
  List.perm_insertionSort _ _

theorem tokensToIds_dict_nodup (tokens : List Str) : ((tokensToIds tokens).2).Nodup :=
  (List.Perm.nodup_iff (tokensToIds_dict_perm tokens)).mpr (nodup_firstSeenDict tokens)

theorem tokensToIds_dict_sorted_strict (tokens : List Str) :
    List.Pairwise (fun a b => jsLtStr a b = true) (tokensToIds tokens).2 := by
  have hs := tokensToIds_dict_sorted tokens
  have hn := tokensToIds_dict_nodup tokens
  exact (hs.and hn).imp (fun h => jsLtStr_of_le_of_ne _ _ h.1 h.2)

theorem tokensToIds_dict_mem (tokens : List Str) (t : Str) :
    t ∈ (tokensToIds tokens).2 ↔ t ∈ tokens := by
  rw [(tokensToIds_dict_perm tokens).mem_iff, mem_firstSeenDict]

theorem tokensToIds_dict_set_determined (toks1 toks2 : List Str)
    (h12 : ∀ t ∈ toks1, t ∈ toks2) (h21 : ∀ t ∈ toks2, t ∈ toks1) :
    (tokensToIds toks1).2 = (tokensToIds toks2).2 := by
  letI : IsAntisymm Str (fun a b => jsLeStr a b = true) := ⟨jsLeStr_antisymm⟩
  refine List.eq_of_perm_of_sorted ?_ (tokensToIds_dict_sorted toks1)
    (tokensToIds_dict_sorted toks2)
  refine (List.perm_ext_iff_of_nodup (tokensToIds_dict_nodup toks1)
    (tokensToIds_dict_nodup toks2)).mpr ?_
  intro t
  rw [tokensToIds_dict_mem, tokensToIds_dict_mem]
  exact ⟨fun h => h12 t h, fun h => h21 t h⟩

theorem strBEq_eq : (List.instBEq : BEq Str) = instBEqOfDecidableEq := by
  have h : ∀ a b : Str, (@BEq.beq _ List.instBEq a b) = decide (a = b) := by
    intro a b
    by_cases hab : a = b
    · subst hab
      simp
    · simp [hab]
  show BEq.mk (fun (a b : Str) => a == b) = BEq.mk (fun a b => decide (a = b))
  exact congrArg BEq.mk (funext fun a => funext fun b => h a b)

theorem tokensToIds_ids (tokens : List Str) :
    (tokensToIds tokens).1 =
      tokens.map (fun tok => (tokensToIds tokens).2.indexOf tok + 1) := by
  simp only [tokensToIds, List.map_map, strBEq_eq]
  refine List.map_congr_left ?_
  intro tok hmem
  simp only [Function.comp_apply]
  have hmemd : tok ∈ firstSeenDict tokens := (mem_firstSeenDict tokens tok).mpr hmem
  have hidx := List.indexOf_lt_length.mpr hmemd
  rw [List.getD_cons_succ, List.getD_eq_getElem?_getD, List.getElem?_map,
    List.getElem?_range hidx]
  simp only [Option.map_some', Option.getD_some]
  congr 2
  rw [List.getD_eq_getElem _ _ hidx]
  exact List.getElem_indexOf hidx

theorem wbwtCompress_dictionary (text : Str) :
    (wbwtCompress text).dictionary = (tokensToIds (normalizeTokens (tokenize text))).2 := by
  rw [wbwtCompress]
  by_cases h : (normalizeTokens (tokenize text)).length = 0
  · rw [if_pos h]
    have h2 : normalizeTokens (tokenize text) = [] := List.length_eq_zero.mp h
    rw [h2]
    rfl
  · rw [if_neg h]

/-- C4 (counterexample): the dictionary is not strictly increasing in
code-point order: for the input `"\u{10000} \u{FFFF}"` the JS sort compares
UTF-16 code units, placing U+10000 (units D800 DC00) before U+FFFF. -/
theorem C4_not_code_point_sorted :
    ¬ List.Pairwise (fun a b => codePointLt a b = true)
      (wbwtCompress [Char.ofNat 65536, ' ', Char.ofNat 65535]).dictionary := by decide

/-- C4 (amended): for every input text the dictionary of `wbwtCompress` is
strictly increasing in UTF-16 code-unit lexicographic order (the order of
the JS default sort; it equals code-point order on dictionaries without
supplementary-plane entries), hence has no duplicates; the dictionary is
determined by the set of distinct normalized tokens alone, and each token's
id is one plus the position of the token in that sorted dictionary —
independent of first-seen order. -/
theorem C4_dictionary_sorted_and_set_determined (text : Str) :
    List.Pairwise (fun a b => jsLtStr a b = true) (wbwtCompress text).dictionary ∧
    (∀ text2 : Str,
      (∀ t ∈ normalizeTokens (tokenize text), t ∈ normalizeTokens (tokenize text2)) →
      (∀ t ∈ normalizeTokens (tokenize text2), t ∈ normalizeTokens (tokenize text)) →
      (wbwtCompress text).dictionary = (wbwtCompress text2).dictionary) ∧
    (tokensToIds (normalizeTokens (tokenize text))).1 =
      (normalizeTokens (tokenize text)).map
        (fun tok => (wbwtCompress text).dictionary.indexOf tok + 1) := by
  refine ⟨?_, ?_, ?_⟩
  · rw [wbwtCompress_dictionary]
    exact tokensToIds_dict_sorted_strict _
  · intro text2 h12 h21
    rw [wbwtCompress_dictionary, wbwtCompress_dictionary]
    exact tokensToIds_dict_set_determined _ _ h12 h21
  · rw [wbwtCompress_dictionary]
    exact tokensToIds_ids _

/-- C4 (witness): `"b a"` and `"a b"` have the same set of normalized tokens
and receive the same dictionary. -/
theorem C4_set_determined_witness :
    (wbwtCompress "b a".data).dictionary = (wbwtCompress "a b".data).dictionary :=
  (C4_dictionary_sorted_and_set_determined "b a".data).2.1 "a b".data
    (by decide) (by decide)
